import Mathlib

/-!
Shallow embedding of the tag-inheritance and parent-relocation core of an
Obsidian note-management plugin: `TagService.getInheritedTags`,
`NoteService.findTopicWithSubfolder` and `NoteService.changeNoteParent`
(all from `src/main.ts`), together with proofs of the specification's
testable properties.

The source traversals recurse through the parent-link chain with no cycle
guard, so in the embedding each traversal takes an explicit fuel argument;
`none` means the recursion did not reach a base case within the given
fuel, and a result that is `none` for every fuel is a non-terminating run
of the original recursion.
-/

namespace VG

/-- A frontmatter `tags` value: either a single string or an array of
strings, as the plugin accepts both shapes. -/
inductive TagVal where
  | str : String → TagVal
  | arr : List String → TagVal
  deriving DecidableEq, Repr

/-- The frontmatter fields read by the core: `tags`, `parent` (a raw link
token such as `[[path|display]]`), `Class` and `subfolder`.  A `none`
field models an absent key. -/
structure Note where
  tags : Option TagVal
  parent : Option String
  Class : Option String
  subfolder : Option String
  deriving DecidableEq, Repr

abbrev FileMap := List (String × Note)

/-- Association-list lookup, modelling metadata-cache / JS-object indexing
by note path. -/
def alookup {β : Type} : List (String × β) → String → Option β
  | [], _ => none
  | (k, b) :: rest, p => if k = p then some b else alookup rest p

/-- The host vault as seen by the core: parsed frontmatter per path, and
the host's link resolver `getFirstLinkpathDest(linkpath, fromPath)`. -/
structure Vault where
  files : FileMap
  resolve : String → String → Option String

/-- JS truthiness of an optional string field: absent and `""` are falsy. -/
def truthyS : Option String → Bool
  | none => false
  | some s => if s = "" then false else true

/-- Normalization applied to the `tags` frontmatter value by both
`getInheritedTags` and `changeNoteParent`: a single string becomes a
one-element list (an empty string is falsy and yields nothing), an array
is used as is, an absent value yields nothing. -/
def normTags : Option TagVal → List String
  | none => []
  | some (.str s) => if s = "" then [] else [s]
  | some (.arr l) => l

/-- `String.contains`-style substring test (JS `tag.contains(prefix)`). -/
def listContains (sub : List Char) : List Char → Bool
  | [] => sub.isEmpty
  | c :: rest => sub.isPrefixOf (c :: rest) || listContains sub rest

def containsSub (s sub : String) : Bool := listContains sub.data s.data

/-- `TagService.prefixTag`: with an empty namespace token the tag is
returned unchanged (the source always calls it with `prefix = ""`). -/
def prefixTag (pre tag : String) : String :=
  if pre = "" then tag
  else if containsSub tag pre then tag
  else pre ++ "/" ++ tag

/-- Insertion into a JS `Set` materialized as an insertion-ordered
duplicate-free list. -/
def addTag (acc : List String) (t : String) : List String :=
  if t ∈ acc then acc else acc ++ [t]

def addTags (acc : List String) (ts : List String) : List String :=
  ts.foldl addTag acc

/-- `[...new Set(ts)]`: deduplication keeping first occurrences. -/
def dedupList (ts : List String) : List String := addTags [] ts

/-- Rest of the character stream after the first `[[` (the start of the
first match of the link regex `\[\[(.*?)(?:\|.*?)?\]\]`). -/
def findBracketRest : List Char → Option (List Char)
  | [] => none
  | c :: rest =>
    if c = '[' ∧ rest.head? = some '[' then some rest.tail
    else findBracketRest rest

/-- Characters of the link body up to the first `]]`; `none` when the
brackets are never closed (no regex match). -/
def takeBody : List Char → Option (List Char)
  | [] => none
  | c :: rest =>
    if c = ']' ∧ rest.head? = some ']' then some []
    else (takeBody rest).map (c :: ·)

/-- First capture group of `\[\[(.*?)(?:\|.*?)?\]\]`: the link target text
before any `|` display part. -/
def parseLinkTarget (s : String) : Option String :=
  (findBracketRest s.data).bind fun rest =>
    (takeBody rest).map fun body => ⟨body.takeWhile (· != '|')⟩

/-- Characters after the last `/` of a path. -/
def lastSegmentChars (cs : List Char) : List Char :=
  (cs.reverse.takeWhile (· != '/')).reverse

/-- Characters before the last `.`, or the whole list when there is no
dot. -/
def stripExtChars (cs : List Char) : List Char :=
  if '.' ∈ cs then ((cs.reverse.dropWhile (· != '.')).drop 1).reverse else cs

/-- The host's `TFile.basename`: file name of the path without its
extension. -/
def basename (p : String) : String :=
  ⟨stripExtChars (lastSegmentChars p.data)⟩

/-- `metadataCache.getFileCache(file)?.frontmatter`. -/
def getFM (v : Vault) (path : String) : Option Note := alookup v.files path

/-- The parent-resolution step shared by both traversals: match the
`parent` frontmatter value against the link regex and resolve the target
relative to the current path.  Any failure (absent or falsy field, no
regex match, unresolvable link) means "no parent". -/
def parentStep (v : Vault) (fm : Option Note) (path : String) : Option String :=
  match fm.bind (·.parent) with
  | none => none
  | some plink =>
    match parseLinkTarget plink with
    | none => none
    | some lp => v.resolve lp path

/-- The note's own contribution to the accumulator set (current-file tags
passed through `prefixTag` with the empty namespace token). -/
def ownTags (v : Vault) (path : String) : List String :=
  (match getFM v path with
   | some note => normTags note.tags
   | none => []).map (prefixTag "")

/-- `TagService.getInheritedTags`, with fuel: add the note's own tags to
the accumulator, then, when the `parent` link resolves, recursively add
the parent's inherited tags.  `none` = the unguarded recursion of the
source did not terminate within `fuel` steps. -/
def getInheritedTags (v : Vault) (fuel : Nat) (path : String) : Option (List String) :=
  match fuel with
  | 0 => none
  | n + 1 =>
    let acc := addTags [] (ownTags v path)
    match parentStep v (getFM v path) path with
    | none => some acc
    | some pp =>
      (getInheritedTags v n pp).map fun ptags => addTags acc (ptags.map (prefixTag ""))

/-- `NoteService.findTopicWithSubfolder`, with fuel: walk the ancestry
(inclusive) for the nearest note whose `Class` is `Topic` and whose
`subfolder` field is truthy; inner `none` is the source's `null`. -/
def findTopicWithSubfolder (v : Vault) (fuel : Nat) (path : String) :
    Option (Option String) :=
  match fuel with
  | 0 => none
  | n + 1 =>
    match getFM v path with
    | none => some none
    | some note =>
      if note.Class = some "Topic" ∧ truthyS note.subfolder = true then some note.subfolder
      else
        match parentStep v (some note) path with
        | none => some none
        | some pp => findTopicWithSubfolder v n pp

/-- Per-class resource-type configuration (`ResourceTypeSettings`). -/
structure ResourceTypeSettings where
  name : String
  folderName : String
  templatePath : String
  allowedParentClasses : List String
  requiresParent : Bool := false
  addNameAsTag : Bool := false
  moveOnParentChange : Bool := false
  deriving DecidableEq, Repr

abbrev Settings := List (String × ResourceTypeSettings)

/-- The link token written by `changeNoteParent`:
`[[${newParent.path}|${newParent.basename}]]`. -/
def mkLink (path bname : String) : String := "[[" ++ path ++ "|" ++ bname ++ "]]"

def emptyNote : Note := ⟨none, none, none, none⟩

/-- The previous parent's inherited tags as computed by
`changeNoteParent` before any mutation: `[]` on a missing `parent` field,
a failed regex match or a failed resolution (`getInheritedTags(null)`
returns `[]`). -/
def oldInherited (v : Vault) (fuel : Nat) (notePath : String) (fm : Note) :
    Option (List String) :=
  match fm.parent with
  | none => some []
  | some plink =>
    match parseLinkTarget plink with
    | none => some []
    | some lp =>
      match v.resolve lp notePath with
      | none => some []
      | some pp => getInheritedTags v fuel pp

/-- The read phase of `changeNoteParent`: split the current tags into
custom tags (those not in the previous parent's inherited set) and
re-merge with the new parent's inherited tags, and point `parent` at the
new parent.  `none` = one of the two tag traversals did not terminate. -/
def updatedNote (v : Vault) (fuel : Nat) (notePath newParentPath : String) :
    Option Note :=
  match oldInherited v fuel notePath ((getFM v notePath).getD emptyNote) with
  | none => none
  | some oldI =>
    match getInheritedTags v fuel newParentPath with
    | none => none
    | some newI =>
      some { (getFM v notePath).getD emptyNote with
        tags := some (.arr (dedupList
          (((normTags ((getFM v notePath).getD emptyNote).tags).filter
              fun t => decide (t ∉ oldI)) ++ newI))),
        parent := some (mkLink newParentPath (basename newParentPath)) }

/-- Mutable vault state threaded through `changeNoteParent`: the active
note's current path, the frontmatter store, and the set of existing
folders. -/
structure VState where
  notePath : String
  files : FileMap
  folders : List String
  deriving Repr

/-- Which storage-collaborator calls succeed; a `false` models the host
call throwing. -/
structure StorageOracle where
  createFolderOk : String → Bool
  renameOk : String → Bool

/-- `vault.modify`: replace the frontmatter stored at a path. -/
def setNote (files : FileMap) (p : String) (n : Note) : FileMap :=
  files.map fun pr => if pr.1 = p then (p, n) else pr

/-- `fileManager.renameFile`: move the entry at `oldP` to `newP`. -/
def renameEntry (files : FileMap) (oldP newP : String) : FileMap :=
  files.map fun pr => if pr.1 = oldP then (newP, pr.2) else pr

/-- The destination directory computed by `changeNoteParent`:
`${topicSubfolder}/${resourceType.folderName}${subtopicPath}` where the
extra `/${newParent.basename}` segment is added exactly when the new
parent's `Class` is `SubTopic`. -/
def destDir (files : FileMap) (rt : ResourceTypeSettings)
    (topicSub newParentPath : String) : String :=
  topicSub ++ "/" ++ rt.folderName ++
    (if (alookup files newParentPath).bind (·.Class) = some "SubTopic"
     then "/" ++ basename newParentPath else "")

/-- The destination path: destination directory plus the note's base
filename with the `.md` extension. -/
def destPath (files : FileMap) (rt : ResourceTypeSettings)
    (topicSub newParentPath notePath : String) : String :=
  destDir files rt topicSub newParentPath ++ "/" ++ basename notePath ++ ".md"

/-- `NoteService.changeNoteParent`: compute the updated frontmatter from
the pre-mutation state, then, when the note's resource type moves on
parent change and a topic subfolder is found, create the destination
folder if needed, rename, and write the content at the new path;
otherwise write in place.  Outer `none` = a tag traversal did not
terminate; `.error s` = a storage call threw, leaving state `s`. -/
def changeNoteParent (settings : Settings) (resolve : String → String → Option String)
    (ork : StorageOracle) (fuel : Nat) (st : VState) (newParentPath : String) :
    Option (Except VState VState) :=
  match updatedNote ⟨st.files, resolve⟩ fuel st.notePath newParentPath with
  | none => none
  | some fm' =>
    match ((getFM ⟨st.files, resolve⟩ st.notePath).getD emptyNote).Class.bind (alookup settings) with
    | none => some (.ok { st with files := setNote st.files st.notePath fm' })
    | some rt =>
      if rt.moveOnParentChange then
        match findTopicWithSubfolder ⟨st.files, resolve⟩ fuel newParentPath with
        | none => none
        | some none => some (.ok { st with files := setNote st.files st.notePath fm' })
        | some (some s) =>
          if s = "" then some (.ok { st with files := setNote st.files st.notePath fm' })
          else if destPath st.files rt s newParentPath st.notePath = st.notePath then
            some (.ok { st with files := setNote st.files st.notePath fm' })
          else
            match (if destDir st.files rt s newParentPath ∈ st.folders then some st.folders
                   else if ork.createFolderOk (destDir st.files rt s newParentPath) then
                     some (destDir st.files rt s newParentPath :: st.folders)
                   else none) with
            | none => some (.error st)
            | some folders' =>
              if ork.renameOk (destPath st.files rt s newParentPath st.notePath) then
                match alookup (renameEntry st.files st.notePath
                        (destPath st.files rt s newParentPath st.notePath))
                      (destPath st.files rt s newParentPath st.notePath) with
                | some _ =>
                  some (.ok ⟨destPath st.files rt s newParentPath st.notePath,
                    setNote (renameEntry st.files st.notePath
                        (destPath st.files rt s newParentPath st.notePath))
                      (destPath st.files rt s newParentPath st.notePath) fm', folders'⟩)
                | none =>
                  some (.ok ⟨destPath st.files rt s newParentPath st.notePath,
                    renameEntry st.files st.notePath
                      (destPath st.files rt s newParentPath st.notePath), folders'⟩)
              else some (.error { st with folders := folders' })
      else some (.ok { st with files := setNote st.files st.notePath fm' })

/-! ### Concrete vaults used as test inputs and witnesses -/

/-- A resolver that maps every known vault-absolute path to itself, the
host behaviour for links written as full paths. -/
def selfResolve (known : List String) : String → String → Option String :=
  fun lp _ => if lp ∈ known then some lp else none

def chNoteA : Note := { tags := some (.arr ["x"]), parent := none, Class := none, subfolder := none }
def chNoteB : Note := { tags := some (.arr ["y"]), parent := some "[[A.md]]", Class := none, subfolder := none }
def chNoteC : Note := { tags := some (.arr ["z"]), parent := some "[[B.md]]", Class := none, subfolder := none }

/-- The chain A ← B ← C with tags A:["x"], B:["y"], C:["z"]. -/
def chainVault : Vault :=
  ⟨[("A.md", chNoteA), ("B.md", chNoteB), ("C.md", chNoteC)], selfResolve ["A.md", "B.md", "C.md"]⟩

def cycNoteA : Note := { tags := some (.arr ["a"]), parent := some "[[B.md]]", Class := none, subfolder := none }
def cycNoteB : Note := { tags := some (.arr ["b"]), parent := some "[[A.md]]", Class := none, subfolder := none }

/-- The cyclic ancestry A ← B ← A. -/
def cyclicVault : Vault :=
  ⟨[("A.md", cycNoteA), ("B.md", cycNoteB)], selfResolve ["A.md", "B.md"]⟩

/-- A note with an empty frontmatter block. -/
def emptyFMVault : Vault := ⟨[("D.md", emptyNote)], selfResolve ["D.md"]⟩

/-! ### Set-accumulator lemmas -/

lemma mem_addTag {acc : List String} {t x : String} :
    x ∈ addTag acc t ↔ x ∈ acc ∨ x = t := by
  unfold addTag
  by_cases h : t ∈ acc
  · simp only [if_pos h]
    constructor
    · exact Or.inl
    · rintro (hx | rfl)
      · exact hx
      · exact h
  · simp [if_neg h]

lemma nodup_addTag {acc : List String} (t : String) (h : acc.Nodup) :
    (addTag acc t).Nodup := by
  unfold addTag
  by_cases ht : t ∈ acc
  · simpa [if_pos ht]
  · simp [if_neg ht, List.nodup_append, h, ht]

lemma addTags_cons (acc : List String) (a : String) (ts : List String) :
    addTags acc (a :: ts) = addTags (addTag acc a) ts := rfl

lemma mem_addTags {ts : List String} {x : String} :
    ∀ {acc : List String}, x ∈ addTags acc ts ↔ x ∈ acc ∨ x ∈ ts := by
  induction ts with
  | nil => intro acc; simp [addTags]
  | cons a ts ih =>
    intro acc
    rw [addTags_cons, ih, mem_addTag]
    simp [or_assoc]

lemma nodup_addTags {ts : List String} :
    ∀ {acc : List String}, acc.Nodup → (addTags acc ts).Nodup := by
  induction ts with
  | nil => intro acc h; exact h
  | cons a ts ih => intro acc h; exact ih (nodup_addTag a h)

lemma mem_dedupList {ts : List String} {x : String} : x ∈ dedupList ts ↔ x ∈ ts := by
  simp [dedupList, mem_addTags]

lemma nodup_dedupList (ts : List String) : (dedupList ts).Nodup :=
  nodup_addTags List.nodup_nil

lemma prefixTag_empty (t : String) : prefixTag "" t = t := rfl

lemma map_prefixTag_empty (l : List String) : l.map (prefixTag "") = l := by
  induction l with
  | nil => rfl
  | cons a l ih => simp [prefixTag_empty, ih]

/-! ### C1: cyclic ancestry -/

lemma cyclic_fuel_exhausted : ∀ n : Nat,
    getInheritedTags cyclicVault n "A.md" = none ∧
    getInheritedTags cyclicVault n "B.md" = none := by
  intro n
  induction n with
  | zero => exact ⟨rfl, rfl⟩
  | succ n ih =>
    constructor
    · have h : getInheritedTags cyclicVault (n + 1) "A.md" =
          (getInheritedTags cyclicVault n "B.md").map
            (fun ptags => addTags (addTags [] (ownTags cyclicVault "A.md"))
              (ptags.map (prefixTag ""))) := rfl
      rw [h, ih.2]; rfl
    · have h : getInheritedTags cyclicVault (n + 1) "B.md" =
          (getInheritedTags cyclicVault n "A.md").map
            (fun ptags => addTags (addTags [] (ownTags cyclicVault "B.md"))
              (ptags.map (prefixTag ""))) := rfl
      rw [h, ih.1]; rfl

/-- C1: on the cyclic ancestry A ← B ← A the source's
`getInheritedTags(A)` never reaches a base case: the fuel-indexed
embedding exhausts every fuel bound, i.e. the unguarded recursion does
not terminate, contradicting the claimed visited-set termination. -/
theorem C1_cyclic_getInheritedTags_diverges :
    ∀ n : Nat, getInheritedTags cyclicVault n "A.md" = none :=
  fun n => (cyclic_fuel_exhausted n).1

/-! ### C2: value of getInheritedTags -/

lemma getInheritedTags_succ (v : Vault) (n : Nat) (path : String) :
    getInheritedTags v (n + 1) path =
      match parentStep v (getFM v path) path with
      | none => some (addTags [] (ownTags v path))
      | some pp =>
        (getInheritedTags v n pp).map
          (fun ptags => addTags (addTags [] (ownTags v path)) (ptags.map (prefixTag ""))) := rfl

lemma getInheritedTags_succ_none {v : Vault} {n : Nat} {path : String}
    (hps : parentStep v (getFM v path) path = none) :
    getInheritedTags v (n + 1) path = some (addTags [] (ownTags v path)) := by
  rw [getInheritedTags_succ, hps]

lemma getInheritedTags_succ_some {v : Vault} {n : Nat} {path pp : String}
    (hps : parentStep v (getFM v path) path = some pp) :
    getInheritedTags v (n + 1) path =
      (getInheritedTags v n pp).map
        (fun ptags => addTags (addTags [] (ownTags v path)) (ptags.map (prefixTag ""))) := by
  rw [getInheritedTags_succ, hps]

/-- C2: whenever the traversal terminates, the result is duplicate-free
and holds exactly the note's own (normalized) tags together with the
inherited tags of the resolved parent; when the parent link is absent or
fails to resolve (`parentStep … = none`) only the own tags remain.
Moreover on the chain A ← B ← C with tags x, y, z the result for C is
the set \x7bx, y, z\x7d, and a note with an empty frontmatter block yields the
empty set. -/
theorem C2_getInheritedTags_value :
    (∀ (v : Vault) (n : Nat) (path : String) (r : List String),
       getInheritedTags v (n + 1) path = some r →
       r.Nodup ∧
       ∀ t, t ∈ r ↔ (t ∈ ownTags v path ∨
          ∃ pp pr, parentStep v (getFM v path) path = some pp ∧
                   getInheritedTags v n pp = some pr ∧ t ∈ pr)) ∧
    (∃ r, getInheritedTags chainVault 3 "C.md" = some r ∧
       ∀ t, t ∈ r ↔ (t = "x" ∨ t = "y" ∨ t = "z")) ∧
    getInheritedTags emptyFMVault 1 "D.md" = some [] := by
  refine ⟨?_, ⟨["z", "y", "x"], rfl, ?_⟩, rfl⟩
  · intro v n path r h
    cases hps : parentStep v (getFM v path) path with
    | none =>
      rw [getInheritedTags_succ_none hps] at h
      injection h with h
      subst h
      refine ⟨nodup_addTags List.nodup_nil, fun t => ?_⟩
      rw [mem_addTags]
      constructor
      · rintro (ht | ht)
        · cases ht
        · exact Or.inl ht
      · rintro (ht | ⟨pp, pr, hpp, -, -⟩)
        · exact Or.inr ht
        · exact Option.noConfusion hpp
    | some pp =>
      rw [getInheritedTags_succ_some hps] at h
      cases hr : getInheritedTags v n pp with
      | none => rw [hr] at h; cases h
      | some ptags =>
        rw [hr] at h
        injection h with h
        subst h
        refine ⟨nodup_addTags (nodup_addTags List.nodup_nil), fun t => ?_⟩
        simp only [map_prefixTag_empty, mem_addTags]
        constructor
        · rintro ((ht | ht) | ht)
          · cases ht
          · exact Or.inl ht
          · exact Or.inr ⟨pp, ptags, rfl, hr, ht⟩
        · rintro (ht | ⟨pp', pr, hpp, hpr, ht⟩)
          · exact Or.inl (Or.inr ht)
          · injection hpp with hpp
            subst hpp
            rw [hr] at hpr
            injection hpr with hpr
            subst hpr
            exact Or.inr ht
  · intro t
    simp only [List.mem_cons, List.not_mem_nil, or_false]
    tauto

/-- Witness for C2 at the chain A ← B ← C. -/
theorem C2_witness :
    (["z", "y", "x"] : List String).Nodup ∧ "x" ∈ (["z", "y", "x"] : List String) := by
  have h := C2_getInheritedTags_value.1 chainVault 2 "C.md" ["z", "y", "x"] rfl
  exact ⟨h.1, (h.2 "x").2 (Or.inr ⟨"B.md", ["y", "x"], rfl, rfl, by simp⟩)⟩

/-! ### Character-level lemmas about link parsing and basenames -/

lemma data_append (a b : String) : (a ++ b).data = a.data ++ b.data := rfl

lemma string_eq_of_data {a b : String} (h : a.data = b.data) : a = b := by
  cases a; cases b; exact congrArg String.mk h

lemma takeWhile_append_all {p : Char → Bool} (l₁ l₂ : List Char)
    (h : ∀ x ∈ l₁, p x = true) :
    (l₁ ++ l₂).takeWhile p = l₁ ++ l₂.takeWhile p := by
  induction l₁ with
  | nil => rfl
  | cons a l ih =>
    have ha : p a = true := h a (List.mem_cons_self a l)
    simp [List.takeWhile_cons, ha, ih (fun x hx => h x (List.mem_cons_of_mem a hx))]

lemma mem_takeWhile_sat {p : Char → Bool} {l : List Char} {x : Char}
    (h : x ∈ l.takeWhile p) : p x = true := by
  induction l with
  | nil => cases h
  | cons a l ih =>
    rw [List.takeWhile_cons] at h
    by_cases hp : p a
    · rw [if_pos hp] at h
      rcases List.mem_cons.1 h with rfl | h
      · exact hp
      · exact ih h
    · rw [if_neg hp] at h; cases h

lemma mem_of_takeWhile {p : Char → Bool} {l : List Char} {x : Char}
    (h : x ∈ l.takeWhile p) : x ∈ l := by
  induction l with
  | nil => cases h
  | cons a l ih =>
    rw [List.takeWhile_cons] at h
    by_cases hp : p a
    · rw [if_pos hp] at h
      rcases List.mem_cons.1 h with rfl | h
      · exact List.mem_cons_self _ _
      · exact List.mem_cons_of_mem _ (ih h)
    · rw [if_neg hp] at h; cases h

lemma mem_of_dropWhile {p : Char → Bool} {l : List Char} {x : Char}
    (h : x ∈ l.dropWhile p) : x ∈ l := by
  induction l with
  | nil => cases h
  | cons a l ih =>
    rw [List.dropWhile_cons] at h
    by_cases hp : p a
    · rw [if_pos hp] at h; exact List.mem_cons_of_mem _ (ih h)
    · rw [if_neg hp] at h; exact h

lemma takeWhile_stop {p : Char → Bool} {l₁ : List Char} {a : Char} (l₂ : List Char)
    (hall : ∀ x ∈ l₁, p x = true) (ha : p a = false) :
    (l₁ ++ a :: l₂).takeWhile p = l₁ := by
  rw [takeWhile_append_all _ _ hall]
  simp [List.takeWhile_cons, ha]

lemma lastSegment_append_slash {as bs : List Char} (h : '/' ∉ bs) :
    lastSegmentChars (as ++ '/' :: bs) = bs := by
  unfold lastSegmentChars
  rw [List.reverse_append, List.reverse_cons, List.append_assoc,
      List.singleton_append]
  rw [takeWhile_stop as.reverse ?hall ?hslash]
  · exact List.reverse_reverse bs
  case hall =>
    intro x hx
    have hxb : x ∈ bs := List.mem_reverse.1 hx
    simp only [bne_iff_ne, ne_eq]
    exact fun e => h (e ▸ hxb)
  case hslash => rfl

lemma lastSegment_no_slash {bs : List Char} (h : '/' ∉ bs) :
    lastSegmentChars bs = bs := by
  unfold lastSegmentChars
  have h2 : (bs.reverse ++ []).takeWhile (· != '/')
      = bs.reverse ++ ([] : List Char).takeWhile (· != '/') := takeWhile_append_all bs.reverse []
    (fun x hx => by
      have hxb : x ∈ bs := List.mem_reverse.1 hx
      simp only [bne_iff_ne, ne_eq]
      exact fun e => h (e ▸ hxb))
  simp only [List.append_nil, List.takeWhile_nil] at h2
  rw [h2, List.reverse_reverse]

lemma no_slash_lastSegment (cs : List Char) : '/' ∉ lastSegmentChars cs := by
  intro hmem
  unfold lastSegmentChars at hmem
  rw [List.mem_reverse] at hmem
  have := mem_takeWhile_sat hmem
  simp at this

lemma stripExt_md (bs : List Char) : stripExtChars (bs ++ ('.' :: 'm' :: 'd' :: [])) = bs := by
  unfold stripExtChars
  rw [if_pos (by simp : ('.' : Char) ∈ bs ++ ('.' :: 'm' :: 'd' :: []))]
  rw [List.reverse_append]
  have hrev : ('.' :: 'm' :: 'd' :: ([] : List Char)).reverse = 'd' :: 'm' :: '.' :: [] := rfl
  rw [hrev]
  simp [List.dropWhile_cons]

lemma stripExt_subset {cs : List Char} {x : Char} (h : x ∈ stripExtChars cs) : x ∈ cs := by
  unfold stripExtChars at h
  by_cases hd : ('.' : Char) ∈ cs
  · rw [if_pos hd] at h
    rw [List.mem_reverse] at h
    have h1 : x ∈ cs.reverse.dropWhile (· != '.') := List.mem_of_mem_drop h
    exact List.mem_reverse.1 (mem_of_dropWhile h1)
  · rwa [if_neg hd] at h

lemma basename_data (p : String) :
    (basename p).data = stripExtChars (lastSegmentChars p.data) := rfl

lemma no_slash_basename (p : String) : '/' ∉ (basename p).data := by
  intro h
  rw [basename_data] at h
  exact no_slash_lastSegment p.data (stripExt_subset h)

lemma basename_chars_subset {p : String} {x : Char} (h : x ∈ (basename p).data) :
    x ∈ p.data := by
  rw [basename_data] at h
  have h1 : x ∈ lastSegmentChars p.data := stripExt_subset h
  unfold lastSegmentChars at h1
  rw [List.mem_reverse] at h1
  exact List.mem_reverse.1 (mem_of_takeWhile h1)

/-- The basename of a freshly-built destination path is the base filename
appended to it. -/
lemma basename_of_dest (d b : String) (hb : '/' ∉ b.data) :
    basename (d ++ "/" ++ b ++ ".md") = b := by
  apply string_eq_of_data
  have hdata : (d ++ "/" ++ b ++ ".md").data
      = d.data ++ '/' :: (b.data ++ ('.' :: 'm' :: 'd' :: [])) := by
    simp [data_append]
  rw [basename_data, hdata, lastSegment_append_slash ?hnb, stripExt_md]
  case hnb => simp [hb]

lemma findBracketRest_double (l : List Char) :
    findBracketRest ('[' :: '[' :: l) = some l := by
  simp [findBracketRest]

lemma takeBody_closes {l : List Char} (rest : List Char) (h : ']' ∉ l) :
    takeBody (l ++ ']' :: ']' :: rest) = some l := by
  induction l with
  | nil => simp [takeBody]
  | cons a l ih =>
    have ha : ¬ a = ']' := fun e => h (by simp [e])
    have h' : ']' ∉ l := fun hl => h (List.mem_cons_of_mem _ hl)
    rw [List.cons_append]
    simp only [takeBody]
    rw [if_neg (by simp [ha]), ih h']
    rfl

lemma parseLinkTarget_mkLink {p b : String}
    (hp1 : ']' ∉ p.data) (hp2 : '|' ∉ p.data) (hb : ']' ∉ b.data) :
    parseLinkTarget (mkLink p b) = some p := by
  have hdata : (mkLink p b).data
      = '[' :: '[' :: ((p.data ++ '|' :: b.data) ++ ']' :: ']' :: []) := by
    simp [mkLink, data_append]
  unfold parseLinkTarget
  rw [hdata, findBracketRest_double, Option.some_bind,
      takeBody_closes _ (by simp [hp1, hb]), Option.map_some']
  congr 1
  apply string_eq_of_data
  show (p.data ++ '|' :: b.data).takeWhile (· != '|') = p.data
  apply takeWhile_stop
  · intro x hx
    simp only [bne_iff_ne, ne_eq]
    exact fun e => hp2 (e ▸ hx)
  · rfl

/-! ### File-map lemmas -/

lemma alookup_cons {β : Type} (k : String) (b : β) (rest : List (String × β)) (p : String) :
    alookup ((k, b) :: rest) p = if k = p then some b else alookup rest p := rfl

lemma setNote_cons (k : String) (b : Note) (rest : FileMap) (p : String) (n : Note) :
    setNote ((k, b) :: rest) p n = (if k = p then (p, n) else (k, b)) :: setNote rest p n := by
  unfold setNote
  rw [List.map_cons]

lemma renameEntry_cons (k : String) (b : Note) (rest : FileMap) (oldP newP : String) :
    renameEntry ((k, b) :: rest) oldP newP
      = (if k = oldP then (newP, b) else (k, b)) :: renameEntry rest oldP newP := by
  unfold renameEntry
  rw [List.map_cons]

lemma alookup_setNote_self {files : FileMap} {p : String} {n x : Note}
    (h : alookup files p = some x) : alookup (setNote files p n) p = some n := by
  induction files with
  | nil => cases h
  | cons pr rest ih =>
    obtain ⟨k, b⟩ := pr
    rw [setNote_cons]
    by_cases hp : k = p
    · rw [if_pos hp, alookup_cons, if_pos rfl]
    · rw [alookup_cons, if_neg hp] at h
      rw [if_neg hp, alookup_cons, if_neg hp]
      exact ih h

lemma map_fst_setNote (files : FileMap) (p : String) (n : Note) :
    (setNote files p n).map Prod.fst = files.map Prod.fst := by
  induction files with
  | nil => rfl
  | cons pr rest ih =>
    obtain ⟨k, b⟩ := pr
    rw [setNote_cons]
    by_cases hp : k = p
    · simp [if_pos hp, hp, ih]
    · simp [if_neg hp, ih]

lemma alookup_renameEntry_isSome {files : FileMap} {oldP : String} (newP : String) {x : Note}
    (h : alookup files oldP = some x) :
    ∃ y, alookup (renameEntry files oldP newP) newP = some y := by
  induction files with
  | nil => cases h
  | cons pr rest ih =>
    obtain ⟨k, b⟩ := pr
    rw [renameEntry_cons]
    by_cases hp : k = oldP
    · exact ⟨b, by rw [if_pos hp, alookup_cons, if_pos rfl]⟩
    · rw [alookup_cons, if_neg hp] at h
      by_cases hn : k = newP
      · exact ⟨b, by rw [if_neg hp, alookup_cons, if_pos hn]⟩
      · obtain ⟨y, hy⟩ := ih h
        exact ⟨y, by rw [if_neg hp, alookup_cons, if_neg hn]; exact hy⟩

/-! ### Characterizations of updatedNote and changeNoteParent -/

lemma updatedNote_eq {v : Vault} {fuel : Nat} {notePath newP : String} {fm' : Note}
    (h : updatedNote v fuel notePath newP = some fm') :
    ∃ oldI newI,
      oldInherited v fuel notePath ((getFM v notePath).getD emptyNote) = some oldI ∧
      getInheritedTags v fuel newP = some newI ∧
      fm' = { (getFM v notePath).getD emptyNote with
        tags := some (.arr (dedupList
          (((normTags ((getFM v notePath).getD emptyNote).tags).filter
              fun t => decide (t ∉ oldI)) ++ newI))),
        parent := some (mkLink newP (basename newP)) } := by
  unfold updatedNote at h
  split at h
  · cases h
  next oldI h1 =>
    split at h
    · cases h
    next newI h2 =>
      injection h with h
      exact ⟨oldI, newI, h1, h2, h.symm⟩

/-- When the `parent` field holds a parseable and resolvable link, the
old-inherited computation is the inherited-tags traversal at the
resolved path. -/
lemma oldInherited_link {v : Vault} {fuel : Nat} {notePath lp pp : String} {fm : Note}
    {pb : String}
    (hpar : fm.parent = some pb) (hparse : parseLinkTarget pb = some lp)
    (hres : v.resolve lp notePath = some pp) :
    oldInherited v fuel notePath fm = getInheritedTags v fuel pp := by
  simp only [oldInherited, hpar, hparse, hres]

/-- Shape of every successful (`.ok`) run of `changeNoteParent`: the
updated frontmatter is computed from the pre-mutation state, and the
final state is either the in-place write (with the reason relocation was
skipped) or the relocated write at the computed destination path. -/
lemma changeNoteParent_ok_shape {settings : Settings}
    {resolve : String → String → Option String} {ork : StorageOracle} {fuel : Nat}
    {st : VState} {newP : String} {st' : VState} {fm₀ : Note}
    (hfm : alookup st.files st.notePath = some fm₀)
    (h : changeNoteParent settings resolve ork fuel st newP = some (.ok st')) :
    ∃ fm', updatedNote ⟨st.files, resolve⟩ fuel st.notePath newP = some fm' ∧
      ((st' = { st with files := setNote st.files st.notePath fm' } ∧
        (fm₀.Class.bind (alookup settings) = none ∨
         (∃ rt, fm₀.Class.bind (alookup settings) = some rt ∧
            (rt.moveOnParentChange = false ∨
             findTopicWithSubfolder ⟨st.files, resolve⟩ fuel newP = some none ∨
             (∃ s, findTopicWithSubfolder ⟨st.files, resolve⟩ fuel newP = some (some s) ∧
                (s = "" ∨ destPath st.files rt s newP st.notePath = st.notePath)))))) ∨
       (∃ rt s folders',
          fm₀.Class.bind (alookup settings) = some rt ∧ rt.moveOnParentChange = true ∧
          findTopicWithSubfolder ⟨st.files, resolve⟩ fuel newP = some (some s) ∧ ¬ s = "" ∧
          ¬ destPath st.files rt s newP st.notePath = st.notePath ∧
          st' = ⟨destPath st.files rt s newP st.notePath,
                 setNote (renameEntry st.files st.notePath
                     (destPath st.files rt s newP st.notePath))
                   (destPath st.files rt s newP st.notePath) fm', folders'⟩)) := by
  have hgd : (getFM ⟨st.files, resolve⟩ st.notePath).getD emptyNote = fm₀ := by
    simp [getFM, hfm]
  unfold changeNoteParent at h
  rw [hgd] at h
  split at h
  · cases h
  next fm' hup =>
    refine ⟨fm', hup, ?_⟩
    split at h
    next hbind =>
      injection h with h
      injection h with h
      exact Or.inl ⟨h.symm, Or.inl hbind⟩
    next rt hbind =>
      split at h
      next hmv =>
        split at h
        · cases h
        next hft =>
          injection h with h
          injection h with h
          exact Or.inl ⟨h.symm, Or.inr ⟨rt, hbind, Or.inr (Or.inl hft)⟩⟩
        next s hft =>
          split at h
          next hs =>
            injection h with h
            injection h with h
            exact Or.inl ⟨h.symm, Or.inr ⟨rt, hbind, Or.inr (Or.inr ⟨s, hft, Or.inl hs⟩)⟩⟩
          next hs =>
            split at h
            next hdp =>
              injection h with h
              injection h with h
              exact Or.inl ⟨h.symm, Or.inr ⟨rt, hbind, Or.inr (Or.inr ⟨s, hft, Or.inr hdp⟩)⟩⟩
            next hdp =>
              split at h
              · simp at h
              next folders' hfold =>
                split at h
                next hren =>
                  split at h
                  next y hlk =>
                    injection h with h
                    injection h with h
                    exact Or.inr ⟨rt, s, folders', hbind, hmv, hft, hs, hdp, h.symm⟩
                  next hlk =>
                    obtain ⟨y, hy⟩ := alookup_renameEntry_isSome
                      (destPath st.files rt s newP st.notePath) hfm
                    rw [hlk] at hy
                    cases hy
                next hren => simp at h
      next hmv =>
        injection h with h
        injection h with h
        have hmv' : rt.moveOnParentChange = false := by
          cases hb : rt.moveOnParentChange
          · rfl
          · exact absurd hb hmv
        exact Or.inl ⟨h.symm, Or.inr ⟨rt, hbind, Or.inl hmv'⟩⟩

/-- After any successful run, the note stored at the final path holds the
updated frontmatter. -/
lemma changeNoteParent_ok_lookup {settings : Settings}
    {resolve : String → String → Option String} {ork : StorageOracle} {fuel : Nat}
    {st : VState} {newP : String} {st' : VState} {fm₀ : Note}
    (hfm : alookup st.files st.notePath = some fm₀)
    (h : changeNoteParent settings resolve ork fuel st newP = some (.ok st')) :
    ∃ fm', updatedNote ⟨st.files, resolve⟩ fuel st.notePath newP = some fm' ∧
      alookup st'.files st'.notePath = some fm' := by
  obtain ⟨fm', hup, hcase⟩ := changeNoteParent_ok_shape hfm h
  refine ⟨fm', hup, ?_⟩
  rcases hcase with ⟨hst, -⟩ | ⟨rt, s, folders', -, -, -, -, -, hst⟩
  · subst hst
    exact alookup_setNote_self hfm
  · subst hst
    obtain ⟨y, hy⟩ := alookup_renameEntry_isSome
      (destPath st.files rt s newP st.notePath) hfm
    exact alookup_setNote_self hy

/-! ### C3: postcondition of changeNoteParent -/

/-- C3: after a successful `changeNoteParent(note, newParent)` the note
stored at the final path carries a `parent` link whose target text is the
new parent's path — hence resolving, under the host's contract that
vault-absolute paths resolve to themselves, to the new parent — and a
duplicate-free tag list containing every tag of the new parent's
inherited set, as computed on the pre-mutation state. -/
theorem C3_changeParent_postcondition
    (settings : Settings) (resolve : String → String → Option String)
    (ork : StorageOracle) (fuel : Nat) (st : VState) (newP : String) (st' : VState)
    (fm₀ : Note)
    (hfm : alookup st.files st.notePath = some fm₀)
    (hp1 : ']' ∉ newP.data) (hp2 : '|' ∉ newP.data)
    (hres : ∀ x, resolve newP x = some newP)
    (h : changeNoteParent settings resolve ork fuel st newP = some (.ok st')) :
    ∃ fmN, alookup st'.files st'.notePath = some fmN ∧
      (∃ plink, fmN.parent = some plink ∧ parseLinkTarget plink = some newP ∧
        resolve newP st'.notePath = some newP) ∧
      ∃ newI, getInheritedTags ⟨st.files, resolve⟩ fuel newP = some newI ∧
        ∃ l, fmN.tags = some (.arr l) ∧ l.Nodup ∧ ∀ t ∈ newI, t ∈ l := by
  obtain ⟨fm', hup, hlk⟩ := changeNoteParent_ok_lookup hfm h
  obtain ⟨oldI, newI, hold, hnew, hfm'⟩ := updatedNote_eq hup
  subst hfm'
  refine ⟨_, hlk,
    ⟨mkLink newP (basename newP), rfl,
      parseLinkTarget_mkLink hp1 hp2 (fun hx => hp1 (basename_chars_subset hx)), hres _⟩,
    newI, hnew, _, rfl, nodup_dedupList _, fun t ht => ?_⟩
  rw [mem_dedupList]
  exact List.mem_append.2 (Or.inr ht)

/-! ### The spec's relocation scenario as a concrete input -/

def pathTA : String := "10_Topics/TopicA.md"
def pathTB : String := "10_Topics/TopicB.md"
def pathX : String := "20_TopicA/00_Subtopics/SubTopicX.md"

def noteTA : Note :=
  { tags := some (.arr ["foo"]), parent := none,
    Class := some "Topic", subfolder := some "20_TopicA" }

def noteTB : Note :=
  { tags := some (.arr ["bar"]), parent := none,
    Class := some "Topic", subfolder := some "20_TopicB" }

def noteX : Note :=
  { tags := some (.arr ["foo"]), parent := some "[[10_Topics/TopicA.md|TopicA]]",
    Class := some "SubTopic", subfolder := none }

def exFiles : FileMap := [(pathTA, noteTA), (pathTB, noteTB), (pathX, noteX)]

def exResolve : String → String → Option String := selfResolve [pathTA, pathTB, pathX]

def exRT : ResourceTypeSettings :=
  { name := "SubTopic", folderName := "00_Subtopics",
    templatePath := "99_Organize/Templates/SubtopicTemplate.md",
    allowedParentClasses := ["Topic"], requiresParent := true,
    addNameAsTag := true, moveOnParentChange := true }

def exSettings : Settings := [("SubTopic", exRT)]

def allOk : StorageOracle := ⟨fun _ => true, fun _ => true⟩

def exSt : VState := ⟨pathX, exFiles, []⟩

def pathX' : String := "20_TopicB/00_Subtopics/SubTopicX.md"

def noteX' : Note :=
  { tags := some (.arr ["bar"]), parent := some "[[10_Topics/TopicB.md|TopicB]]",
    Class := some "SubTopic", subfolder := none }

/-- The state after the scenario's parent change: tags became ["bar"],
the link points at TopicB, and the file moved to
20_TopicB/00_Subtopics/SubTopicX.md. -/
def exSt1 : VState :=
  ⟨pathX', [(pathTA, noteTA), (pathTB, noteTB), (pathX', noteX')],
   ["20_TopicB/00_Subtopics"]⟩

lemma exRun1 : changeNoteParent exSettings exResolve allOk 5 exSt pathTB
    = some (.ok exSt1) := rfl

/-- Witness for C3 at the spec's relocation scenario. -/
theorem C3_witness :
    ∃ fmN, alookup exSt1.files exSt1.notePath = some fmN ∧
      (∃ plink, fmN.parent = some plink ∧ parseLinkTarget plink = some pathTB ∧
        exResolve pathTB exSt1.notePath = some pathTB) ∧
      ∃ newI, getInheritedTags ⟨exSt.files, exResolve⟩ 5 pathTB = some newI ∧
        ∃ l, fmN.tags = some (.arr l) ∧ l.Nodup ∧ ∀ t ∈ newI, t ∈ l :=
  C3_changeParent_postcondition exSettings exResolve allOk 5 exSt pathTB exSt1 noteX
    rfl (by decide) (by decide) (fun _ => rfl) exRun1

/-! ### C4: the custom/inherited tag split -/

/-- C4: the new tag list written by `changeNoteParent` is exactly the
deduplicated union of the note's custom tags — its current tags minus the
previous parent's inherited set, computed before any mutation — and the
new parent's inherited tags; in particular a custom tag textually equal
to an old inherited tag (and not re-inherited) is dropped by the split. -/
theorem C4_custom_inherited_split
    (v : Vault) (fuel : Nat) (notePath newP : String) (fm₀ : Note)
    (oldI newI : List String) (fm' : Note)
    (hfm : getFM v notePath = some fm₀)
    (hold : oldInherited v fuel notePath fm₀ = some oldI)
    (hnew : getInheritedTags v fuel newP = some newI)
    (hup : updatedNote v fuel notePath newP = some fm') :
    ∃ l, fm'.tags = some (.arr l) ∧ l.Nodup ∧
      (∀ t, t ∈ l ↔ ((t ∈ normTags fm₀.tags ∧ t ∉ oldI) ∨ t ∈ newI)) ∧
      (∀ t, t ∈ normTags fm₀.tags → t ∈ oldI → t ∉ newI → t ∉ l) := by
  obtain ⟨oldI', newI', hold', hnew', hfm'⟩ := updatedNote_eq hup
  rw [hfm, Option.getD_some] at hold' hfm'
  rw [hold] at hold'
  injection hold' with e1
  subst e1
  rw [hnew] at hnew'
  injection hnew' with e2
  subst e2
  subst hfm'
  refine ⟨_, rfl, nodup_dedupList _, fun t => ?_, fun t h1 h2 h3 hl => ?_⟩
  · rw [mem_dedupList, List.mem_append, List.mem_filter]
    simp only [decide_eq_true_eq]
  · rw [mem_dedupList, List.mem_append, List.mem_filter] at hl
    rcases hl with ⟨-, h4⟩ | h4
    · rw [decide_eq_true_eq] at h4
      exact h4 h2
    · exact h3 h4

/-- Witness for C4 at the spec's relocation scenario. -/
theorem C4_witness :
    ∃ l, noteX'.tags = some (.arr l) ∧ l.Nodup ∧
      (∀ t, t ∈ l ↔
        ((t ∈ normTags noteX.tags ∧ t ∉ (["foo"] : List String)) ∨
          t ∈ (["bar"] : List String))) ∧
      (∀ t, t ∈ normTags noteX.tags → t ∈ (["foo"] : List String) →
        t ∉ (["bar"] : List String) → t ∉ l) :=
  C4_custom_inherited_split ⟨exFiles, exResolve⟩ 5 pathX pathTB noteX
    ["foo"] ["bar"] noteX' rfl rfl rfl rfl

/-! ### C5: the destination path -/

/-- C5: when the note's resource type moves on parent change and the new
parent's ancestry yields a topic subfolder `s`, a successful run leaves
the note at `s / folderName [/ newParent.basename when newParent's class
is the non-root intermediate class SubTopic] / basename.md`, keeping its
base filename. -/
theorem C5_destination_path
    (settings : Settings) (resolve : String → String → Option String)
    (ork : StorageOracle) (fuel : Nat) (st : VState) (newP : String) (st' : VState)
    (fm₀ : Note) (cls : String) (rt : ResourceTypeSettings) (s : String)
    (hfm : alookup st.files st.notePath = some fm₀)
    (hcls : fm₀.Class = some cls)
    (hrt : alookup settings cls = some rt)
    (hmv : rt.moveOnParentChange = true)
    (hft : findTopicWithSubfolder ⟨st.files, resolve⟩ fuel newP = some (some s))
    (hs : ¬ s = "")
    (h : changeNoteParent settings resolve ork fuel st newP = some (.ok st')) :
    st'.notePath = s ++ "/" ++ rt.folderName ++
      (if (alookup st.files newP).bind (·.Class) = some "SubTopic"
       then "/" ++ basename newP else "") ++ "/" ++ basename st.notePath ++ ".md" ∧
    basename st'.notePath = basename st.notePath := by
  have hbind : fm₀.Class.bind (alookup settings) = some rt := by
    rw [hcls, Option.some_bind, hrt]
  have hform : destPath st.files rt s newP st.notePath
      = s ++ "/" ++ rt.folderName ++
        (if (alookup st.files newP).bind (·.Class) = some "SubTopic"
         then "/" ++ basename newP else "") ++ "/" ++ basename st.notePath ++ ".md" := rfl
  have hbase : basename (destPath st.files rt s newP st.notePath)
      = basename st.notePath :=
    basename_of_dest _ _ (no_slash_basename _)
  obtain ⟨fm', hup, hcase⟩ := changeNoteParent_ok_shape hfm h
  rcases hcase with ⟨hst, hreason⟩ | ⟨rt', s', folders', hbind', hmv', hft', hs', hdp', hst⟩
  · rcases hreason with hnone | ⟨rt', hbind', hrest⟩
    · rw [hbind] at hnone; cases hnone
    · rw [hbind] at hbind'
      injection hbind' with e; subst e
      rcases hrest with hmv' | hft' | ⟨s', hft', hrest⟩
      · rw [hmv] at hmv'; cases hmv'
      · rw [hft] at hft'
        injection hft' with e
        cases e
      · rw [hft] at hft'
        injection hft' with e
        injection e with e
        subst e
        rcases hrest with hse | hdpe
        · exact absurd hse hs
        · subst hst
          refine ⟨?_, rfl⟩
          show st.notePath = _
          rw [← hform, hdpe]
  · rw [hbind] at hbind'
    injection hbind' with e; subst e
    rw [hft] at hft'
    injection hft' with e
    injection e with e
    subst e
    subst hst
    exact ⟨hform, hbase⟩

/-- Witness for C5 at the spec's relocation scenario: the note lands at
20_TopicB/00_Subtopics/SubTopicX.md. -/
theorem C5_witness :
    exSt1.notePath = "20_TopicB" ++ "/" ++ exRT.folderName ++
      (if (alookup exSt.files pathTB).bind (·.Class) = some "SubTopic"
       then "/" ++ basename pathTB else "") ++ "/" ++ basename exSt.notePath ++ ".md" ∧
    basename exSt1.notePath = basename exSt.notePath :=
  C5_destination_path exSettings exResolve allOk 5 exSt pathTB exSt1 noteX
    "SubTopic" exRT "20_TopicB" rfl rfl rfl rfl rfl (by decide) exRun1

/-! ### C6: relocation skip when no topic subfolder is found -/

/-- C6: when the resource type moves on parent change but
`findTopicWithSubfolder(newParent)` returns none, a successful run still
updates the note's tags and parent link (in place) while the note's path,
the folder set and the stored paths are unchanged. -/
theorem C6_skip_relocation
    (settings : Settings) (resolve : String → String → Option String)
    (ork : StorageOracle) (fuel : Nat) (st : VState) (newP : String) (st' : VState)
    (fm₀ : Note) (cls : String) (rt : ResourceTypeSettings)
    (hfm : alookup st.files st.notePath = some fm₀)
    (hcls : fm₀.Class = some cls)
    (hrt : alookup settings cls = some rt)
    (hmv : rt.moveOnParentChange = true)
    (hft : findTopicWithSubfolder ⟨st.files, resolve⟩ fuel newP = some none)
    (h : changeNoteParent settings resolve ork fuel st newP = some (.ok st')) :
    st'.notePath = st.notePath ∧ st'.folders = st.folders ∧
    st'.files.map Prod.fst = st.files.map Prod.fst ∧
    ∃ fm', updatedNote ⟨st.files, resolve⟩ fuel st.notePath newP = some fm' ∧
      alookup st'.files st.notePath = some fm' ∧
      fm'.parent = some (mkLink newP (basename newP)) := by
  obtain ⟨fm', hup, hcase⟩ := changeNoteParent_ok_shape hfm h
  rcases hcase with ⟨hst, -⟩ | ⟨rt', s', folders', hbind', hmv', hft', hs', hdp', hst⟩
  · subst hst
    obtain ⟨oldI, newI, -, -, hfm'⟩ := updatedNote_eq hup
    refine ⟨rfl, rfl, map_fst_setNote _ _ _, fm', hup, alookup_setNote_self hfm, ?_⟩
    rw [hfm']
  · rw [hft] at hft'
    injection hft' with e
    cases e

def pathTC : String := "10_Topics/TopicC.md"

/-- A Topic note that declares no subfolder, so
`findTopicWithSubfolder` fails on it. -/
def noteTC : Note :=
  { tags := some (.arr ["baz"]), parent := none,
    Class := some "Topic", subfolder := none }

def exFilesC : FileMap := [(pathTC, noteTC), (pathX, noteX), (pathTA, noteTA)]

def exResolveC : String → String → Option String := selfResolve [pathTC, pathX, pathTA]

def exStC : VState := ⟨pathX, exFilesC, []⟩

def noteXc : Note :=
  { tags := some (.arr ["baz"]), parent := some "[[10_Topics/TopicC.md|TopicC]]",
    Class := some "SubTopic", subfolder := none }

/-- After reparenting to the subfolder-less TopicC the note is updated in
place. -/
def exStC1 : VState := ⟨pathX, [(pathTC, noteTC), (pathX, noteXc), (pathTA, noteTA)], []⟩

lemma exRunC : changeNoteParent exSettings exResolveC allOk 5 exStC pathTC
    = some (.ok exStC1) := rfl

/-- Witness for C6: reparenting onto a Topic without a subfolder updates
tags and link but leaves the path and folders untouched. -/
theorem C6_witness :
    exStC1.notePath = exStC.notePath ∧ exStC1.folders = exStC.folders ∧
    exStC1.files.map Prod.fst = exStC.files.map Prod.fst ∧
    ∃ fm', updatedNote ⟨exStC.files, exResolveC⟩ 5 exStC.notePath pathTC = some fm' ∧
      alookup exStC1.files exStC.notePath = some fm' ∧
      fm'.parent = some (mkLink pathTC (basename pathTC)) :=
  C6_skip_relocation exSettings exResolveC allOk 5 exStC pathTC exStC1 noteX
    "SubTopic" exRT rfl rfl rfl rfl rfl exRunC

/-! ### C7: storage failure leaves the note untouched -/

/-- C7: whenever a storage-collaborator call (folder creation or rename)
fails during `changeNoteParent`, the run aborts with the frontmatter
store and the note's path exactly as before the call: the updated content
is only ever written after any required relocation has succeeded. -/
theorem C7_storage_failure_atomic
    (settings : Settings) (resolve : String → String → Option String)
    (ork : StorageOracle) (fuel : Nat) (st : VState) (newP : String) (e : VState)
    (h : changeNoteParent settings resolve ork fuel st newP = some (.error e)) :
    e.files = st.files ∧ e.notePath = st.notePath := by
  unfold changeNoteParent at h
  split at h
  · cases h
  next fm' hup =>
    split at h
    · simp at h
    next rt hbind =>
      split at h
      next hmv =>
        split at h
        · cases h
        · simp at h
        next s hft =>
          split at h
          · simp at h
          next hs =>
            split at h
            · simp at h
            next hdp =>
              split at h
              next hfold =>
                injection h with h
                injection h with h
                subst h
                exact ⟨rfl, rfl⟩
              next folders' hfold =>
                split at h
                next hren =>
                  split at h
                  · simp at h
                  · simp at h
                next hren =>
                  injection h with h
                  injection h with h
                  subst h
                  exact ⟨rfl, rfl⟩
      next hmv => simp at h

/-- An oracle whose folder creation always fails. -/
def noFolder : StorageOracle := ⟨fun _ => false, fun _ => true⟩

lemma exRunFail : changeNoteParent exSettings exResolve noFolder 5 exSt pathTB
    = some (.error exSt) := rfl

/-- Witness for C7: with folder creation failing, the relocation scenario
aborts and the note's stored frontmatter and path are unchanged. -/
theorem C7_witness : exSt.files = exSt.files ∧ exSt.notePath = exSt.notePath :=
  C7_storage_failure_atomic exSettings exResolve noFolder 5 exSt pathTB exSt exRunFail

/-! ### C8: idempotence of changeNoteParent -/

lemma destPath_files_congr {files₁ files₀ : FileMap} (rt : ResourceTypeSettings)
    (s newP np : String) (hinv : alookup files₁ newP = alookup files₀ newP) :
    destPath files₁ rt s newP np = destPath files₀ rt s newP np := by
  unfold destPath destDir
  rw [hinv]

lemma destPath_basename_congr (files : FileMap) (rt : ResourceTypeSettings)
    (s newP : String) {np₁ np₀ : String} (hb : basename np₁ = basename np₀) :
    destPath files rt s newP np₁ = destPath files rt s newP np₀ := by
  unfold destPath
  rw [hb]

lemma basename_destPath (files : FileMap) (rt : ResourceTypeSettings)
    (s newP np : String) :
    basename (destPath files rt s newP np) = basename np :=
  basename_of_dest _ _ (no_slash_basename _)

/-- C8: two successive successful `changeNoteParent` calls with the same
new parent end at the same path and with the same tag set as one call,
provided the new parent's ancestry data is unaffected by the first call
(the invariance hypotheses, which hold whenever the new parent's chain
does not pass through the reparented note itself). -/
theorem C8_changeParent_idempotent
    (settings : Settings) (resolve : String → String → Option String)
    (ork : StorageOracle) (fuel : Nat) (st₀ : VState) (newP : String)
    (st₁ st₂ : VState) (fm₀ : Note)
    (hfm : alookup st₀.files st₀.notePath = some fm₀)
    (hp1 : ']' ∉ newP.data) (hp2 : '|' ∉ newP.data)
    (hres : ∀ x, resolve newP x = some newP)
    (h1 : changeNoteParent settings resolve ork fuel st₀ newP = some (.ok st₁))
    (h2 : changeNoteParent settings resolve ork fuel st₁ newP = some (.ok st₂))
    (hinv1 : getInheritedTags ⟨st₁.files, resolve⟩ fuel newP
           = getInheritedTags ⟨st₀.files, resolve⟩ fuel newP)
    (hinv2 : findTopicWithSubfolder ⟨st₁.files, resolve⟩ fuel newP
           = findTopicWithSubfolder ⟨st₀.files, resolve⟩ fuel newP)
    (hinv3 : alookup st₁.files newP = alookup st₀.files newP) :
    st₂.notePath = st₁.notePath ∧
    ∃ fm₁ fm₂ l₁ l₂,
      alookup st₁.files st₁.notePath = some fm₁ ∧ fm₁.tags = some (.arr l₁) ∧
      alookup st₂.files st₂.notePath = some fm₂ ∧ fm₂.tags = some (.arr l₂) ∧
      ∀ t, t ∈ l₂ ↔ t ∈ l₁ := by
  obtain ⟨fm', hup₁, hcase₁⟩ := changeNoteParent_ok_shape hfm h1
  obtain ⟨fm'a, hup₁a, hlk₁⟩ := changeNoteParent_ok_lookup hfm h1
  rw [hup₁] at hup₁a
  injection hup₁a with e
  subst e
  obtain ⟨oldI, newI, hold₀, hnew₀, hfm'1⟩ := updatedNote_eq hup₁
  have hgd0 : (getFM ⟨st₀.files, resolve⟩ st₀.notePath).getD emptyNote = fm₀ := by
    simp [getFM, hfm]
  rw [hgd0] at hfm'1
  have hpar' : fm'.parent = some (mkLink newP (basename newP)) := by rw [hfm'1]
  have hClass' : fm'.Class = fm₀.Class := by rw [hfm'1]
  have htags' : fm'.tags = some (.arr (dedupList
      (((normTags fm₀.tags).filter fun t => decide (t ∉ oldI)) ++ newI))) := by
    rw [hfm'1]
  obtain ⟨fm₂', hup₂, hcase₂⟩ := changeNoteParent_ok_shape hlk₁ h2
  obtain ⟨fm₂'a, hup₂a, hlk₂⟩ := changeNoteParent_ok_lookup hlk₁ h2
  rw [hup₂] at hup₂a
  injection hup₂a with e
  subst e
  obtain ⟨oldI₂, newI₂, hold₂, hnew₂, hfm₂'⟩ := updatedNote_eq hup₂
  have hgd1 : (getFM ⟨st₁.files, resolve⟩ st₁.notePath).getD emptyNote = fm' := by
    simp [getFM, hlk₁]
  rw [hgd1] at hold₂ hfm₂'
  have hparse : parseLinkTarget (mkLink newP (basename newP)) = some newP :=
    parseLinkTarget_mkLink hp1 hp2 (fun hx => hp1 (basename_chars_subset hx))
  rw [oldInherited_link hpar' hparse (hres st₁.notePath), hinv1, hnew₀] at hold₂
  injection hold₂ with e
  subst e
  rw [hinv1, hnew₀] at hnew₂
  injection hnew₂ with e
  subst e
  have hnormtags : normTags fm'.tags = dedupList
      (((normTags fm₀.tags).filter fun t => decide (t ∉ oldI)) ++ newI) := by
    rw [htags']
    rfl
  have htags₂ : fm₂'.tags = some (.arr (dedupList
      (((dedupList (((normTags fm₀.tags).filter fun t => decide (t ∉ oldI)) ++ newI)).filter
          fun t => decide (t ∉ newI)) ++ newI))) := by
    rw [hfm₂', hnormtags]
  have hpath : st₂.notePath = st₁.notePath := by
    rcases hcase₂ with ⟨hst₂, -⟩ | ⟨rt₂, s₂, folders₂, hbind₂, hmv₂, hft₂, hs₂, hdp₂, hst₂⟩
    · rw [hst₂]
    · exfalso
      rw [hClass'] at hbind₂
      rw [hinv2] at hft₂
      apply hdp₂
      rcases hcase₁ with ⟨hst₁, hreason⟩ |
        ⟨rt₁, s₁, folders₁, hbind₁, hmv₁, hft₁, hs₁, hdp₁, hst₁⟩
      · rcases hreason with hnone | ⟨rt₁, hbind₁, hrest⟩
        · rw [hbind₂] at hnone; cases hnone
        · rw [hbind₂] at hbind₁
          injection hbind₁ with e
          subst e
          rcases hrest with hmv₁ | hft₁ | ⟨s₁, hft₁, hrest⟩
          · rw [hmv₂] at hmv₁; cases hmv₁
          · rw [hft₂] at hft₁
            injection hft₁ with e
            cases e
          · rw [hft₂] at hft₁
            injection hft₁ with e
            injection e with e
            subst e
            rcases hrest with hse | hdpe
            · exact absurd hse hs₂
            · have hn₁ : st₁.notePath = st₀.notePath := by rw [hst₁]
              rw [destPath_files_congr rt₂ s₂ newP st₁.notePath hinv3, hn₁, hdpe]
      · rw [hbind₂] at hbind₁
        injection hbind₁ with e
        subst e
        rw [hft₂] at hft₁
        injection hft₁ with e
        injection e with e
        subst e
        have hn₁ : st₁.notePath = destPath st₀.files rt₂ s₂ newP st₀.notePath := by
          rw [hst₁]
        have hb : basename st₁.notePath = basename st₀.notePath := by
          rw [hn₁]
          exact basename_destPath st₀.files rt₂ s₂ newP st₀.notePath
        rw [destPath_files_congr rt₂ s₂ newP st₁.notePath hinv3,
            destPath_basename_congr st₀.files rt₂ s₂ newP hb, ← hn₁]
  have hsubI : ∀ t ∈ newI, t ∈ dedupList
      (((normTags fm₀.tags).filter fun t => decide (t ∉ oldI)) ++ newI) :=
    fun t ht => mem_dedupList.2 (List.mem_append.2 (Or.inr ht))
  refine ⟨hpath, fm', fm₂', _, _, hlk₁, htags', hlk₂, htags₂, fun t => ?_⟩
  constructor
  · intro ht
    rw [mem_dedupList, List.mem_append] at ht
    rcases ht with ht | ht
    · rw [List.mem_filter] at ht
      exact ht.1
    · exact hsubI t ht
  · intro ht
    rw [mem_dedupList, List.mem_append]
    by_cases hn : t ∈ newI
    · exact Or.inr hn
    · exact Or.inl (List.mem_filter.2 ⟨ht, by rw [decide_eq_true_eq]; exact hn⟩)

lemma exRun2 : changeNoteParent exSettings exResolve allOk 5 exSt1 pathTB
    = some (.ok exSt1) := rfl

/-- Witness for C8: repeating the scenario's parent change is a no-op on
path and tag set. -/
theorem C8_witness :
    exSt1.notePath = exSt1.notePath ∧
    ∃ fm₁ fm₂ l₁ l₂,
      alookup exSt1.files exSt1.notePath = some fm₁ ∧ fm₁.tags = some (.arr l₁) ∧
      alookup exSt1.files exSt1.notePath = some fm₂ ∧ fm₂.tags = some (.arr l₂) ∧
      ∀ t, t ∈ l₂ ↔ t ∈ l₁ :=
  C8_changeParent_idempotent exSettings exResolve allOk 5 exSt pathTB exSt1 exSt1 noteX
    rfl (by decide) (by decide) (fun _ => rfl) exRun1 exRun2 rfl rfl rfl

end VG
